import Mathlib

/-!
Shallow embedding of `lookfor` (src/main.rs), a `find`-like CLI tool:
a walkdir-based traversal (follow_links disabled, optional max_depth
pruning, per-entry errors dropped by `filter_map(|e| e.ok())`) feeding a
chain of four per-entry filters (hidden-visibility, type, name, extension),
with matching entries printed.

File and directory names are modelled as `List Char` (the UTF-8 string of
the OS name; `is_hidden` treats a non-UTF-8 name as not hidden, which the
model does not need since every modelled name is a valid string).
External library behaviour is embedded as follows:
- `walkdir::WalkDir` becomes `walkRun` over an explicit filesystem tree;
- `regex::Regex` compilation is an abstract parameter
  (`List Char → Except (List Char) RE`), and `Regex::is_match` is modelled
  by `isMatch` over the regex AST `RE`: a match anywhere in the haystack;
- `std::process::exit(1)` plus `eprintln!` become the `RunResult` record.
-/

set_option autoImplicit false

namespace Lookfor

/-- File type of a discovered entry, as reported by `DirEntry::file_type()`
with `follow_links(false)`: a symlink reports as `symlink` (neither
`is_file` nor `is_dir`). -/
inductive FType where
  | file
  | dir
  | symlink
  | other
  deriving BEq, DecidableEq, Repr

/-- The `--type` value enum from src/main.rs (`FileTypeFilter`). -/
inductive FileTypeFilter where
  | file
  | dir
  | any
  deriving BEq, DecidableEq, Repr

/-- The parsed CLI arguments relevant to filtering (struct `Args` in
src/main.rs; the positional `path` is represented by the root node handed
to `mainModel`). -/
structure Args where
  name : Option (List Char)
  regex : Bool
  ext : Option (List Char)
  max_depth : Option Nat
  hidden : Bool
  type : FileTypeFilter
  deriving DecidableEq, Repr

/-- One filesystem node: base name, type, whether the walker can stat/read
it, and its children (meaningful only for directories). -/
inductive FSNode where
  | mk : List Char → FType → Bool → List FSNode → FSNode

/-- A discovered entry as walkdir yields it: full path (list of components
from the root, the first being the root path itself), base name
(`DirEntry::file_name()`, which for the root falls back to the root path),
file type, and depth from the root (root = 0). -/
structure Entry where
  path : List (List Char)
  name : List Char
  ftype : FType
  depth : Nat
  deriving DecidableEq, Repr

/-- `is_hidden` from src/main.rs: the base name starts with '.'. -/
def isHiddenName : List Char → Bool
  | [] => false
  | c :: _ => c = '.'

/-- Does the haystack start with the given pattern (helper for Rust
`str::contains`). -/
def beginsWith : List Char → List Char → Bool
  | [], _ => true
  | _ :: _, [] => false
  | p :: ps, c :: cs => p = c && beginsWith ps cs

/-- Rust `str::contains(pat)`: `pat` occurs as a contiguous substring of
`s` (always true for the empty pattern). -/
def containsSub (s pat : List Char) : Bool :=
  s.tails.any (fun t => beginsWith pat t)

/-- ASCII lowercasing of one character (Rust `u8::to_ascii_lowercase`). -/
def asciiLower (c : Char) : Char :=
  if 'A' ≤ c && c ≤ 'Z' then Char.ofNat (c.toNat + 32) else c

/-- Rust `str::eq_ignore_ascii_case`. -/
def eqIgnoreAsciiCase (a b : List Char) : Bool :=
  a.map asciiLower == b.map asciiLower

/-- Split a name at its last '.': returns `(before, after)` where
`name = before ++ '.' :: after`, or `none` when the name has no '.'.
Helper for `std::path::Path::extension`. -/
def afterLastDot : List Char → Option (List Char × List Char)
  | [] => none
  | c :: rest =>
    match afterLastDot rest with
    | some (b, a) => some (c :: b, a)
    | none => if c = '.' then some ([], rest) else none

/-- `std::path::Path::extension()` applied to an entry's base name:
`none` when there is no embedded '.', when the name is ".." (no file
name component), or when the only '.' is the leading one of a hidden
file; otherwise the portion after the final '.'. -/
def rustExtension (name : List Char) : Option (List Char) :=
  if name = ['.', '.'] then none
  else
    match afterLastDot name with
    | none => none
    | some ([], _) => none
    | some (_ :: _, a) => some a

/-- Regular-expression AST standing for a compiled `regex::Regex`. -/
inductive RE where
  | emptyset
  | eps
  | chr : Char → RE
  | alt : RE → RE → RE
  | cat : RE → RE → RE
  | star : RE → RE
  deriving DecidableEq, Repr

/-- Does the regex accept the empty string? -/
def RE.nullable : RE → Bool
  | .emptyset => false
  | .eps => true
  | .chr _ => false
  | .alt r s => r.nullable || s.nullable
  | .cat r s => r.nullable && s.nullable
  | .star _ => true

/-- Brzozowski derivative of a regex by one character. -/
def RE.deriv (a : Char) : RE → RE
  | .emptyset => .emptyset
  | .eps => .emptyset
  | .chr c => if c = a then .eps else .emptyset
  | .alt r s => .alt (r.deriv a) (s.deriv a)
  | .cat r s =>
    if r.nullable then .alt (.cat (r.deriv a) s) (s.deriv a)
    else .cat (r.deriv a) s
  | .star r => .cat (r.deriv a) (.star r)

/-- Exact match: the regex accepts the whole word. -/
def matchExact (r : RE) : List Char → Bool
  | [] => r.nullable
  | a :: as => matchExact (r.deriv a) as

/-- `Regex::is_match`: the regex matches somewhere inside the haystack,
i.e. it exactly matches some contiguous (possibly empty) substring. -/
def isMatch (r : RE) (l : List Char) : Bool :=
  l.tails.any (fun t => t.inits.any (fun p => matchExact r p))

/-- The type-filter test from the main loop of src/main.rs:
`File => file_type.is_file()`, `Dir => file_type.is_dir()`, `Any => true`. -/
def fileTypeMatches : FileTypeFilter → FType → Bool
  | .file, FType.file => true
  | .file, _ => false
  | .dir, FType.dir => true
  | .dir, _ => false
  | .any, _ => true

/-- The name/regex filter from the main loop of src/main.rs: skipped when
`--name` is absent; when present, uses the compiled regex if one exists,
otherwise Rust `str::contains` on the base name. -/
def nameFilterPasses (pat? : Option (List Char)) (nameRegex : Option RE)
    (name : List Char) : Bool :=
  match pat? with
  | none => true
  | some pat =>
    match nameRegex with
    | some re => isMatch re name
    | none => containsSub name pat

/-- The extension filter from the main loop of src/main.rs: skipped when
`--ext` is absent; when present, the path's extension must exist and equal
the filter ASCII-case-insensitively (`unwrap_or(false)`). -/
def extFilterPasses (ext? : Option (List Char)) (name : List Char) : Bool :=
  match ext? with
  | none => true
  | some extFilter =>
    match rustExtension name with
    | some e => eqIgnoreAsciiCase e extFilter
    | none => false

/-- The whole per-entry filter chain of the main loop, in source order:
hidden check, type check, name check, extension check, each `continue`
rendered as returning `false`. -/
def passesFilters (a : Args) (nameRegex : Option RE) (e : Entry) : Bool :=
  if !a.hidden && isHiddenName e.name then false
  else if !fileTypeMatches a.type e.ftype then false
  else if !nameFilterPasses a.name nameRegex e.name then false
  else if !extFilterPasses a.ext e.name then false
  else true

/-- May the walker descend from depth `d` to children at depth `d + 1`?
(walkdir `max_depth`: entries deeper than the bound are pruned, not
post-filtered.) -/
def descendOk (maxd : Option Nat) (d : Nat) : Bool :=
  match maxd with
  | none => true
  | some m => d + 1 ≤ m

mutual
/-- Depth-first preorder walk of one node, as `WalkDir::new(path)` with
`follow_links(false)` yields it: the node's own entry first, then (only
for a readable directory within the depth bound) its children's walks.
An unreadable node yields one `Err` item and nothing below it. -/
def walkNode (maxd : Option Nat) (ppath : List (List Char)) (d : Nat) :
    FSNode → List (Except Unit Entry)
  | FSNode.mk n t r cs =>
    if r then
      Except.ok ⟨ppath ++ [n], n, t, d⟩ ::
        (if t == FType.dir && descendOk maxd d then
          walkChildren maxd (ppath ++ [n]) (d + 1) cs
        else [])
    else [Except.error ()]

/-- Walks of a directory's children, in listing order. -/
def walkChildren (maxd : Option Nat) (ppath : List (List Char)) (d : Nat) :
    List FSNode → List (Except Unit Entry)
  | [] => []
  | c :: cs => walkNode maxd ppath d c ++ walkChildren maxd ppath d cs
end

mutual
/-- Depths of the directories the walk actually opens (enumerates the
children of). Used to state that depth limiting prunes subtrees rather
than filtering entries after the fact. -/
def openedNode (maxd : Option Nat) (d : Nat) : FSNode → List Nat
  | FSNode.mk _ t r cs =>
    if r && (t == FType.dir) && descendOk maxd d then
      d :: openedChildren maxd (d + 1) cs
    else []

/-- Opened-directory depths over a list of children. -/
def openedChildren (maxd : Option Nat) (d : Nat) : List FSNode → List Nat
  | [] => []
  | c :: cs => openedNode maxd d c ++ openedChildren maxd d cs
end

/-- The full walkdir iteration: a nonexistent root yields a single `Err`
item (which `filter_map(|e| e.ok())` then drops), an existing root is
walked from depth 0. -/
def walkRun (maxd : Option Nat) : Option FSNode → List (Except Unit Entry)
  | none => [Except.error ()]
  | some t => walkNode maxd [] 0 t

/-- `Result::ok()` as used by `filter_map(|e| e.ok())`. -/
def okEntry : Except Unit Entry → Option Entry
  | Except.ok e => some e
  | Except.error _ => none

/-- The diagnostic printed by src/main.rs on a regex compile failure:
`eprintln!("Invalid regex '{}': {e}", pattern)`. -/
def invalidRegexMsg (pat err : List Char) : List Char :=
  "Invalid regex '".toList ++ pat ++ "': ".toList ++ err

/-- The regex pre-compilation step of `main`: compile only when `--regex`
was given and a `--name` pattern exists; a compile failure aborts the run
(modelled as `Except.error` carrying the stderr diagnostic). -/
def compileNameRegex (compile : List Char → Except (List Char) RE)
    (rx : Bool) (name? : Option (List Char)) :
    Except (List Char) (Option RE) :=
  if rx then
    match name? with
    | none => Except.ok none
    | some pat =>
      match compile pat with
      | Except.ok re => Except.ok (some re)
      | Except.error e => Except.error (invalidRegexMsg pat e)
  else Except.ok none

/-- Observable outcome of one run: exit code, the entries whose paths were
printed to stdout (in order), and the stderr lines. -/
structure RunResult where
  exitCode : Nat
  stdout : List Entry
  stderr : List (List Char)
  deriving DecidableEq, Repr

/-- The main loop over the raw walkdir items: drop the `Err` items
(`filter_map(|e| e.ok())`), keep the entries the filter chain accepts. -/
def reportEntries (a : Args) (nameRegex : Option RE)
    (raw : List (Except Unit Entry)) : List Entry :=
  (raw.filterMap okEntry).filter (passesFilters a nameRegex)

/-- `main` from src/main.rs: pre-compile the regex (exiting 1 with a
diagnostic on failure, before any traversal), then walk the root, drop
`Err` items, and print every entry that survives the filter chain. -/
def mainModel (compile : List Char → Except (List Char) RE) (a : Args)
    (root : Option FSNode) : RunResult :=
  match compileNameRegex compile a.regex a.name with
  | Except.error msg => { exitCode := 1, stdout := [], stderr := [msg] }
  | Except.ok nameRegex =>
    { exitCode := 0
      stdout := reportEntries a nameRegex (walkRun a.max_depth root)
      stderr := [] }

/-- The hidden-visibility filter of the chain, as an isolated per-entry
predicate (`true` = keep): the first `continue` of the loop. -/
def hiddenPasses (a : Args) (e : Entry) : Bool :=
  !(!a.hidden && isHiddenName e.name)

/-- The type filter of the chain, as an isolated per-entry predicate. -/
def typePasses (a : Args) (e : Entry) : Bool :=
  fileTypeMatches a.type e.ftype

/-- The name filter of the chain, as an isolated per-entry predicate. -/
def namePasses (a : Args) (r : Option RE) (e : Entry) : Bool :=
  nameFilterPasses a.name r e.name

/-- The extension filter of the chain, as an isolated per-entry
predicate. -/
def extPasses (a : Args) (e : Entry) : Bool :=
  extFilterPasses a.ext e.name

/-- A compile function that rejects every pattern (used to instantiate
runs where the regex path is irrelevant or must fail). -/
def compileFail : List Char → Except (List Char) RE :=
  fun _ => Except.error ['b', 'a', 'd']

/-- The default CLI configuration: no name, no regex, no extension, no
depth bound, hidden off, type any. -/
def argsDefault : Args :=
  ⟨none, false, none, none, false, FileTypeFilter.any⟩

/-- Sample tree rooted at "." (the default root path): a plain child
file "a" and a hidden directory ".d" containing a plain file "b". -/
def tDot : FSNode :=
  FSNode.mk ['.'] FType.dir true
    [FSNode.mk ['a'] FType.file true [],
     FSNode.mk ['.', 'd'] FType.dir true [FSNode.mk ['b'] FType.file true []]]

/-- Sample tree "r" containing a subdirectory "s" containing a file "x"
(three levels, for depth-bound runs). -/
def tDepth : FSNode :=
  FSNode.mk ['r'] FType.dir true
    [FSNode.mk ['s'] FType.dir true [FSNode.mk ['x'] FType.file true []]]

/-- Sample tree "r" containing a file "a.txt" and a file "noext". -/
def tExt : FSNode :=
  FSNode.mk ['r'] FType.dir true
    [FSNode.mk ['a', '.', 't', 'x', 't'] FType.file true [],
     FSNode.mk ['n', 'o', 'e', 'x', 't'] FType.file true []]

/-! ### Helper lemmas -/

theorem okEntry_eq_some {x : Except Unit Entry} {e : Entry} :
    okEntry x = some e ↔ x = Except.ok e := by
  cases x <;> simp [okEntry]

theorem passesFilters_eq_all (a : Args) (r : Option RE) (e : Entry) :
    passesFilters a r e =
      [hiddenPasses a e, typePasses a e, namePasses a r e, extPasses a e].all id := by
  unfold passesFilters hiddenPasses typePasses namePasses extPasses
  cases h1 : (!a.hidden && isHiddenName e.name) <;>
    cases h2 : fileTypeMatches a.type e.ftype <;>
      cases h3 : nameFilterPasses a.name r e.name <;>
        cases h4 : extFilterPasses a.ext e.name <;>
          simp [h1, h2, h3, h4]

theorem passes_parts {a : Args} {r : Option RE} {e : Entry}
    (h : passesFilters a r e = true) :
    (!a.hidden && isHiddenName e.name) = false ∧
      fileTypeMatches a.type e.ftype = true ∧
      nameFilterPasses a.name r e.name = true ∧
      extFilterPasses a.ext e.name = true := by
  rw [passesFilters_eq_all] at h
  simp only [List.all_cons, List.all_nil, id_eq, Bool.and_eq_true,
    hiddenPasses, typePasses, namePasses, extPasses] at h
  refine ⟨?_, h.2.1, h.2.2.1, h.2.2.2.1⟩
  have := h.1
  cases hb : (!a.hidden && isHiddenName e.name) <;> simp [hb] at this ⊢

theorem mem_stdout {compile : List Char → Except (List Char) RE} {a : Args}
    {root : Option FSNode} {e : Entry}
    (h : e ∈ (mainModel compile a root).stdout) :
    ∃ r, compileNameRegex compile a.regex a.name = Except.ok r ∧
      passesFilters a r e = true ∧ Except.ok e ∈ walkRun a.max_depth root := by
  unfold mainModel at h
  cases hc : compileNameRegex compile a.regex a.name with
  | error msg => rw [hc] at h; simp at h
  | ok r =>
    rw [hc] at h
    simp only [reportEntries, List.mem_filter, List.mem_filterMap] at h
    obtain ⟨⟨x, hx, hox⟩, hpass⟩ := h
    exact ⟨r, rfl, hpass, okEntry_eq_some.mp hox ▸ hx⟩

mutual

theorem FSNode.indAux (P : FSNode → Prop)
    (h : ∀ n t r cs, (∀ c ∈ cs, P c) → P (FSNode.mk n t r cs)) :
    ∀ x, P x
  | FSNode.mk n t r cs => h n t r cs (FSNode.indAuxList P h cs)

theorem FSNode.indAuxList (P : FSNode → Prop)
    (h : ∀ n t r cs, (∀ c ∈ cs, P c) → P (FSNode.mk n t r cs)) :
    ∀ l : List FSNode, ∀ c ∈ l, P c
  | x :: xs, c, hc => by
    cases hc with
    | head => exact FSNode.indAux P h x
    | tail _ hm => exact FSNode.indAuxList P h xs c hm

end

theorem mem_walkChildren {maxd : Option Nat} {p : List (List Char)} {d : Nat}
    {cs : List FSNode} {x : Except Unit Entry} :
    x ∈ walkChildren maxd p d cs ↔ ∃ c ∈ cs, x ∈ walkNode maxd p d c := by
  induction cs with
  | nil => simp [walkChildren]
  | cons c cs ih => simp [walkChildren, List.mem_append, ih]

theorem mem_openedChildren {maxd : Option Nat} {d : Nat}
    {cs : List FSNode} {k : Nat} :
    k ∈ openedChildren maxd d cs ↔ ∃ c ∈ cs, k ∈ openedNode maxd d c := by
  induction cs with
  | nil => simp [openedChildren]
  | cons c cs ih => simp [openedChildren, List.mem_append, ih]

theorem descendOk_some {m d : Nat} : descendOk (some m) d = true ↔ d + 1 ≤ m := by
  simp [descendOk]

theorem walk_depth_le {m : Nat} (t : FSNode) :
    ∀ (ppath : List (List Char)) (d : Nat), d ≤ m →
      ∀ e : Entry, Except.ok e ∈ walkNode (some m) ppath d t → e.depth ≤ m := by
  induction t using FSNode.indAux with
  | h n ty r cs ih =>
    intro ppath d hd e he
    cases r with
    | false => simp [walkNode] at he
    | true =>
      simp only [walkNode] at he
      rw [if_pos trivial] at he
      cases he with
      | head => exact hd
      | tail _ hm =>
        by_cases hg : (ty == FType.dir && descendOk (some m) d) = true
        · rw [if_pos hg] at hm
          obtain ⟨c, hc, hcm⟩ := mem_walkChildren.mp hm
          have hdes : d + 1 ≤ m :=
            descendOk_some.mp (Bool.and_eq_true .. ▸ hg).2
          exact ih c hc (ppath ++ [n]) (d + 1) hdes e hcm
        · rw [if_neg hg] at hm
          cases hm

theorem walkRun_depth_le {m : Nat} {root : Option FSNode} {e : Entry}
    (h : Except.ok e ∈ walkRun (some m) root) : e.depth ≤ m := by
  cases root with
  | none => simp [walkRun] at h
  | some t => exact walk_depth_le t [] 0 (Nat.zero_le m) e h

theorem opened_lt {m : Nat} (t : FSNode) :
    ∀ d : Nat, ∀ k ∈ openedNode (some m) d t, k < m := by
  induction t using FSNode.indAux with
  | h n ty r cs ih =>
    intro d k hk
    by_cases hg : (r && (ty == FType.dir) && descendOk (some m) d) = true
    · simp only [openedNode, if_pos hg] at hk
      cases hk with
      | head =>
        have : d + 1 ≤ m := descendOk_some.mp (Bool.and_eq_true .. ▸ hg).2
        omega
      | tail _ hm =>
        obtain ⟨c, hc, hcm⟩ := mem_openedChildren.mp hm
        exact ih c hc (d + 1) k hcm
    · simp only [openedNode, if_neg hg] at hk
      cases hk

theorem beginsWith_iff : ∀ (p t : List Char), beginsWith p t = true ↔ ∃ u, t = p ++ u
  | [], t => by simp [beginsWith]
  | p :: ps, [] => by simp [beginsWith]
  | p :: ps, c :: cs => by
    simp only [beginsWith, Bool.and_eq_true, decide_eq_true_eq, beginsWith_iff ps cs,
      List.cons_append, List.cons.injEq]
    constructor
    · rintro ⟨rfl, u, rfl⟩
      exact ⟨u, rfl, rfl⟩
    · rintro ⟨u, rfl, rfl⟩
      exact ⟨rfl, u, rfl⟩

theorem containsSub_iff {s pat : List Char} :
    containsSub s pat = true ↔ ∃ l₁ l₂, s = l₁ ++ pat ++ l₂ := by
  simp only [containsSub, List.any_eq_true, List.mem_tails]
  constructor
  · rintro ⟨t, hts, hb⟩
    obtain ⟨u, rfl⟩ := (beginsWith_iff pat t).mp hb
    obtain ⟨l₁, rfl⟩ := hts
    exact ⟨l₁, u, by simp⟩
  · rintro ⟨l₁, l₂, rfl⟩
    exact ⟨pat ++ l₂, ⟨l₁, by simp⟩, (beginsWith_iff ..).mpr ⟨l₂, rfl⟩⟩

theorem isMatch_iff {r : RE} {l : List Char} :
    isMatch r l = true ↔ ∃ l₁ l₂ l₃, l = l₁ ++ l₂ ++ l₃ ∧ matchExact r l₂ = true := by
  simp only [isMatch, List.any_eq_true, List.mem_tails, List.mem_inits]
  constructor
  · rintro ⟨t, hts, p, hpt, hm⟩
    obtain ⟨l₁, rfl⟩ := hts
    obtain ⟨l₃, rfl⟩ := hpt
    exact ⟨l₁, p, l₃, by simp, hm⟩
  · rintro ⟨l₁, l₂, l₃, rfl, hm⟩
    exact ⟨l₂ ++ l₃, ⟨l₁, by simp⟩, l₂, ⟨l₃, rfl⟩, hm⟩

theorem afterLastDot_eq_none {l : List Char} :
    afterLastDot l = none ↔ '.' ∉ l := by
  induction l with
  | nil => simp [afterLastDot]
  | cons c rest ih =>
    cases h : afterLastDot rest with
    | some ba =>
      have hmem : '.' ∈ rest := by
        by_contra hne
        rw [← ih] at hne
        rw [h] at hne
        cases hne
      simp [afterLastDot, h, hmem]
    | none =>
      have hni : '.' ∉ rest := ih.mp h
      by_cases hc : c = '.'
      · simp [afterLastDot, h, hc]
      · simp [afterLastDot, h, hc, hni, Ne.symm hc]

theorem afterLastDot_eq_some {l : List Char} :
    ∀ {b a : List Char}, afterLastDot l = some (b, a) →
      l = b ++ '.' :: a ∧ '.' ∉ a := by
  induction l with
  | nil => intro b a h; simp [afterLastDot] at h
  | cons c rest ih =>
    intro b a h
    cases hr : afterLastDot rest with
    | some ba =>
      obtain ⟨b', a'⟩ := ba
      simp only [afterLastDot, hr, Option.some.injEq, Prod.mk.injEq] at h
      obtain ⟨rfl, rfl⟩ := h
      obtain ⟨he, hna⟩ := ih hr
      exact ⟨by simp [he], hna⟩
    | none =>
      simp only [afterLastDot, hr] at h
      by_cases hc : c = '.'
      · rw [if_pos hc] at h
        simp only [Option.some.injEq, Prod.mk.injEq] at h
        obtain ⟨rfl, rfl⟩ := h
        subst hc
        exact ⟨rfl, afterLastDot_eq_none.mp hr⟩
      · rw [if_neg hc] at h
        cases h

theorem rustExtension_eq_some {name ec : List Char}
    (h : rustExtension name = some ec) :
    ∃ b, b ≠ [] ∧ name = b ++ '.' :: ec ∧ '.' ∉ ec := by
  unfold rustExtension at h
  by_cases hdd : name = ['.', '.']
  · simp [hdd] at h
  · rw [if_neg hdd] at h
    cases hal : afterLastDot name with
    | none => rw [hal] at h; cases h
    | some ba =>
      obtain ⟨b, a⟩ := ba
      rw [hal] at h
      cases b with
      | nil => simp at h
      | cons x xs =>
        simp only [Option.some.injEq] at h
        subst h
        obtain ⟨he, hna⟩ := afterLastDot_eq_some hal
        exact ⟨x :: xs, by simp, he, hna⟩

theorem passes_default (e : Entry) :
    passesFilters argsDefault none e = !isHiddenName e.name := by
  cases h : isHiddenName e.name <;>
    simp [passesFilters, argsDefault, h, fileTypeMatches, nameFilterPasses,
      extFilterPasses]

/-! ### Claims -/

/-- C1: For every run with hidden-visibility off (no `--hidden`), every
traversed entry whose base name starts with '.' is never reported — every
reported entry has a non-hidden base name — regardless of the name,
extension, and type filters configured. -/
theorem c1_hidden_never_reported (compile : List Char → Except (List Char) RE)
    (a : Args) (root : Option FSNode) (hh : a.hidden = false) :
    ∀ e ∈ (mainModel compile a root).stdout, isHiddenName e.name = false := by
  intro e he
  obtain ⟨r, _, hpass, _⟩ := mem_stdout he
  have h1 := (passes_parts hpass).1
  rw [hh] at h1
  simpa using h1

/-- C1 witness: in a default-configuration run on `tDot`, the entry "a" is
reported and its name is not hidden. -/
theorem c1_hidden_never_reported_witness :
    (⟨[['.'], ['a']], ['a'], FType.file, 1⟩ : Entry) ∈
        (mainModel compileFail argsDefault (some tDot)).stdout ∧
      isHiddenName ['a'] = false :=
  ⟨by decide,
   c1_hidden_never_reported compileFail argsDefault (some tDot) rfl
     ⟨[['.'], ['a']], ['a'], FType.file, 1⟩ (by decide)⟩

/-- C2: With `--ext x` active, an entry is reported only if its base name
has an extension component — the portion after the last '.', with a
nonempty part before that '.' and no further '.' after it — equal to `x`
under case-insensitive ASCII comparison; and an entry with no extension
component never passes the active extension filter. -/
theorem c2_ext_filter (compile : List Char → Except (List Char) RE)
    (a : Args) (root : Option FSNode) (x : List Char) (hx : a.ext = some x) :
    (∀ e ∈ (mainModel compile a root).stdout,
      ∃ ec, rustExtension e.name = some ec ∧ eqIgnoreAsciiCase ec x = true ∧
        ∃ b, b ≠ [] ∧ e.name = b ++ '.' :: ec ∧ '.' ∉ ec) ∧
    (∀ nm : List Char, rustExtension nm = none →
      extFilterPasses (some x) nm = false) := by
  constructor
  · intro e he
    obtain ⟨r, _, hpass, _⟩ := mem_stdout he
    have h4 := (passes_parts hpass).2.2.2
    rw [hx] at h4
    unfold extFilterPasses at h4
    cases hre : rustExtension e.name with
    | none => rw [hre] at h4; cases h4
    | some ec =>
      rw [hre] at h4
      exact ⟨ec, rfl, h4, rustExtension_eq_some hre⟩
  · intro nm hnm
    unfold extFilterPasses
    rw [hnm]

/-- C2 witness: with `--ext TXT` on `tExt`, the reported entry "a.txt"
has extension component "txt" matching "TXT" case-insensitively, and the
extensionless name "noext" is rejected by the filter. -/
theorem c2_ext_filter_witness :
    (∃ ec, rustExtension ['a', '.', 't', 'x', 't'] = some ec ∧
        eqIgnoreAsciiCase ec ['T', 'X', 'T'] = true ∧
        ∃ b, b ≠ [] ∧ (['a', '.', 't', 'x', 't'] : List Char) = b ++ '.' :: ec ∧
          '.' ∉ ec) ∧
      extFilterPasses (some ['T', 'X', 'T']) ['n', 'o', 'e', 'x', 't'] = false :=
  ⟨(c2_ext_filter compileFail
      ⟨none, false, some ['T', 'X', 'T'], none, false, FileTypeFilter.any⟩
      (some tExt) ['T', 'X', 'T'] rfl).1
      ⟨[['r'], ['a', '.', 't', 'x', 't']], ['a', '.', 't', 'x', 't'],
        FType.file, 1⟩ (by decide),
   (c2_ext_filter compileFail
      ⟨none, false, some ['T', 'X', 'T'], none, false, FileTypeFilter.any⟩
      (some tExt) ['T', 'X', 'T'] rfl).2 ['n', 'o', 'e', 'x', 't'] (by decide)⟩

/-- C3: Name-filter semantics: in literal mode (no compiled regex) the
filter accepts iff the criterion is a contiguous, case-sensitive substring
of the base name; in pattern mode it accepts iff the compiled pattern
exactly matches some contiguous piece of the base name (no whole-name
requirement); and every reported entry passed the name filter with the
run's compiled regex. -/
theorem c3_name_modes :
    (∀ pat nm : List Char, nameFilterPasses (some pat) none nm = true ↔
        ∃ l₁ l₂, nm = l₁ ++ pat ++ l₂) ∧
    (∀ (re : RE) (pat nm : List Char),
        nameFilterPasses (some pat) (some re) nm = true ↔
          ∃ l₁ l₂ l₃, nm = l₁ ++ l₂ ++ l₃ ∧ matchExact re l₂ = true) ∧
    (∀ (compile : List Char → Except (List Char) RE) (a : Args)
        (root : Option FSNode) (r : Option RE),
        compileNameRegex compile a.regex a.name = Except.ok r →
          ∀ e ∈ (mainModel compile a root).stdout,
            nameFilterPasses a.name r e.name = true) := by
  refine ⟨?_, ?_, ?_⟩
  · intro pat nm
    simpa [nameFilterPasses] using @containsSub_iff nm pat
  · intro re pat nm
    simpa [nameFilterPasses] using @isMatch_iff re nm
  · intro compile a root r hc e he
    obtain ⟨r', hc', hpass, _⟩ := mem_stdout he
    rw [hc] at hc'
    injection hc' with h'
    subst h'
    exact (passes_parts hpass).2.2.1

/-- C3 witness: "og" decomposes "dog" as a substring; the pattern `b`
matches inside "ab"; and in a literal-mode run with `--name a` on `tExt`,
the reported entry "a.txt" passes the name filter. -/
theorem c3_name_modes_witness :
    (∃ l₁ l₂, (['d', 'o', 'g'] : List Char) = l₁ ++ ['o', 'g'] ++ l₂) ∧
    (∃ l₁ l₂ l₃, (['a', 'b'] : List Char) = l₁ ++ l₂ ++ l₃ ∧
      matchExact (RE.chr 'b') l₂ = true) ∧
    nameFilterPasses (some ['a']) none ['a', '.', 't', 'x', 't'] = true :=
  ⟨(c3_name_modes.1 ['o', 'g'] ['d', 'o', 'g']).mp (by decide),
   (c3_name_modes.2.1 (RE.chr 'b') ['x'] ['a', 'b']).mp (by decide),
   c3_name_modes.2.2 compileFail
     ⟨some ['a'], false, none, none, false, FileTypeFilter.any⟩ (some tExt)
     none rfl
     ⟨[['r'], ['a', '.', 't', 'x', 't']], ['a', '.', 't', 'x', 't'],
       FType.file, 1⟩ (by decide)⟩

/-- C4: Under type filter `file` only regular files are reported; under
`dir` only directories; under `any` every entry type (including symlinks
and special files) passes the type filter. -/
theorem c4_type_filter :
    (∀ (compile : List Char → Except (List Char) RE) (a : Args)
        (root : Option FSNode), a.type = FileTypeFilter.file →
      ∀ e ∈ (mainModel compile a root).stdout, e.ftype = FType.file) ∧
    (∀ (compile : List Char → Except (List Char) RE) (a : Args)
        (root : Option FSNode), a.type = FileTypeFilter.dir →
      ∀ e ∈ (mainModel compile a root).stdout, e.ftype = FType.dir) ∧
    (∀ t : FType, fileTypeMatches FileTypeFilter.any t = true) := by
  refine ⟨?_, ?_, ?_⟩
  · intro compile a root ht e he
    obtain ⟨r, _, hpass, _⟩ := mem_stdout he
    have h2 := (passes_parts hpass).2.1
    rw [ht] at h2
    revert h2
    cases e.ftype <;> simp [fileTypeMatches]
  · intro compile a root ht e he
    obtain ⟨r, _, hpass, _⟩ := mem_stdout he
    have h2 := (passes_parts hpass).2.1
    rw [ht] at h2
    revert h2
    cases e.ftype <;> simp [fileTypeMatches]
  · intro t
    rfl

/-- C4 witness: with `--type file` on `tExt` the reported "a.txt" is a
regular file, and the `any` filter passes a symlink. -/
theorem c4_type_filter_witness :
    (⟨[['r'], ['a', '.', 't', 'x', 't']], ['a', '.', 't', 'x', 't'],
        FType.file, 1⟩ : Entry).ftype = FType.file ∧
      fileTypeMatches FileTypeFilter.any FType.symlink = true :=
  ⟨c4_type_filter.1 compileFail
      ⟨none, false, none, none, false, FileTypeFilter.file⟩ (some tExt) rfl
      ⟨[['r'], ['a', '.', 't', 'x', 't']], ['a', '.', 't', 'x', 't'],
        FType.file, 1⟩ (by decide),
   c4_type_filter.2.2 FType.symlink⟩

/-- C5 counterexample: with `--max-depth 1` on `tDepth`, the output is the
root entry "r" itself (depth 0) followed by the immediate child "s"
(depth 1) — the root entry is reported too, so the run does not produce
"only the root directory's immediate contents". (The deeper file "x" is
pruned, as the claim's bound part states.) -/
theorem c5_root_also_produced :
    (mainModel compileFail ⟨none, false, none, some 1, false, FileTypeFilter.any⟩
        (some tDepth)).stdout =
      [⟨[['r']], ['r'], FType.dir, 0⟩, ⟨[['r'], ['s']], ['s'], FType.dir, 1⟩] := by
  decide

/-- C5 (amended): with `--max-depth D`, no reported entry lies deeper than
D (root at depth 0), and no directory at depth ≥ D is ever opened — the
walk prunes subtrees beyond the bound instead of post-filtering; thus
D = 1 produces the root entry itself plus the root directory's immediate
contents, and nothing deeper. -/
theorem c5_max_depth (compile : List Char → Except (List Char) RE)
    (a : Args) (root : Option FSNode) (m : Nat) (hm : a.max_depth = some m) :
    (∀ e ∈ (mainModel compile a root).stdout, e.depth ≤ m) ∧
    (∀ (d : Nat) (t : FSNode), ∀ k ∈ openedNode (some m) d t, k < m) := by
  constructor
  · intro e he
    obtain ⟨r, _, _, hw⟩ := mem_stdout he
    rw [hm] at hw
    exact walkRun_depth_le hw
  · intro d t k hk
    exact opened_lt t d k hk

/-- C5 witness: in the `--max-depth 1` run on `tDepth`, the reported child
"s" has depth ≤ 1, and the only opened directory (the root, depth 0) is
below the bound. -/
theorem c5_max_depth_witness :
    (⟨[['r'], ['s']], ['s'], FType.dir, 1⟩ : Entry).depth ≤ 1 ∧ 0 < 1 :=
  ⟨(c5_max_depth compileFail
      ⟨none, false, none, some 1, false, FileTypeFilter.any⟩ (some tDepth) 1
      rfl).1 ⟨[['r'], ['s']], ['s'], FType.dir, 1⟩ (by decide),
   (c5_max_depth compileFail
      ⟨none, false, none, some 1, false, FileTypeFilter.any⟩ (some tDepth) 1
      rfl).2 0 tDepth 0 (by decide)⟩

/-- C6: If `--regex` is given and the `--name` pattern fails to compile,
the run exits with status 1 before any traversal (the result is the same
for every root), prints nothing to stdout, and emits on stderr a
diagnostic naming the pattern text and the compiler's error detail. -/
theorem c6_invalid_regex (compile : List Char → Except (List Char) RE)
    (a : Args) (root : Option FSNode) (pat err : List Char)
    (hr : a.regex = true) (hn : a.name = some pat)
    (hc : compile pat = Except.error err) :
    mainModel compile a root =
      { exitCode := 1, stdout := [],
        stderr := ["Invalid regex '".toList ++ pat ++ "': ".toList ++ err] } := by
  unfold mainModel compileNameRegex
  rw [hr, hn]
  simp [hc, invalidRegexMsg]

/-- C6 witness: a failing compile of pattern "[" on a concrete tree gives
exit code 1, empty stdout, and the diagnostic line. -/
theorem c6_invalid_regex_witness :
    mainModel compileFail
        ⟨some ['['], true, none, none, false, FileTypeFilter.any⟩ (some tDot) =
      { exitCode := 1, stdout := [],
        stderr := ["Invalid regex '".toList ++ ['['] ++ "': ".toList ++
          ['b', 'a', 'd']] } :=
  c6_invalid_regex compileFail
    ⟨some ['['], true, none, none, false, FileTypeFilter.any⟩ (some tDot)
    ['['] ['b', 'a', 'd'] rfl rfl rfl

/-- C7: Traversal-time errors are recovered locally and silently: an `Err`
item anywhere in the walked sequence contributes nothing and the remaining
entries are processed unchanged; a run whose configuration succeeded exits
0 with empty stderr whatever the tree holds; and a nonexistent root yields
zero reported entries instead of aborting. -/
theorem c7_traversal_errors (compile : List Char → Except (List Char) RE)
    (a : Args) (r : Option RE)
    (hc : compileNameRegex compile a.regex a.name = Except.ok r) :
    (∀ (pre post : List (Except Unit Entry)) (ex : Unit),
        reportEntries a r (pre ++ Except.error ex :: post) =
          reportEntries a r (pre ++ post)) ∧
    (∀ root : Option FSNode, (mainModel compile a root).exitCode = 0 ∧
        (mainModel compile a root).stderr = []) ∧
    (mainModel compile a none).stdout = [] := by
  refine ⟨?_, ?_, ?_⟩
  · intro pre post ex
    simp [reportEntries, List.filterMap_append, List.filterMap_cons, okEntry]
  · intro root
    unfold mainModel
    rw [hc]
    exact ⟨rfl, rfl⟩
  · unfold mainModel
    rw [hc]
    simp [walkRun, reportEntries, List.filterMap_cons, okEntry]

/-- C7 witness: a lone error item produces no output, and a default run on
a nonexistent root exits 0 with no reported entries. -/
theorem c7_traversal_errors_witness :
    reportEntries argsDefault none ([] ++ Except.error () :: []) =
        reportEntries argsDefault none ([] ++ []) ∧
      (mainModel compileFail argsDefault none).exitCode = 0 ∧
      (mainModel compileFail argsDefault none).stdout = [] :=
  ⟨(c7_traversal_errors compileFail argsDefault none rfl).1 [] [] (),
   ((c7_traversal_errors compileFail argsDefault none rfl).2.1 none).1,
   (c7_traversal_errors compileFail argsDefault none rfl).2.2⟩

/-- C8: The filter chain's result is invariant under reordering: any
permutation of the four per-entry predicates (hidden-visibility, type,
name, extension) has the same conjunction as the fixed-order
short-circuiting chain the code evaluates. -/
theorem c8_filter_order (a : Args) (r : Option RE) (e : Entry)
    (l : List Bool)
    (hp : l.Perm
      [hiddenPasses a e, typePasses a e, namePasses a r e, extPasses a e]) :
    l.all id = passesFilters a r e := by
  rw [passesFilters_eq_all]
  have hiff : l.all id = true ↔
      ([hiddenPasses a e, typePasses a e, namePasses a r e,
        extPasses a e].all id) = true := by
    simp only [List.all_eq_true]
    exact ⟨fun H x hx => H x (hp.mem_iff.mpr hx),
           fun H x hx => H x (hp.mem_iff.mp hx)⟩
  cases hl : l.all id <;>
    cases hr2 : ([hiddenPasses a e, typePasses a e, namePasses a r e,
      extPasses a e].all id) <;> simp_all

/-- C8 witness: at a concrete entry and configuration, the four predicates
evaluated in reverse order conjoin to the chain's verdict. -/
theorem c8_filter_order_witness :
    ([extPasses argsDefault ⟨[['r']], ['r'], FType.dir, 0⟩,
      namePasses argsDefault none ⟨[['r']], ['r'], FType.dir, 0⟩,
      typePasses argsDefault ⟨[['r']], ['r'], FType.dir, 0⟩,
      hiddenPasses argsDefault ⟨[['r']], ['r'], FType.dir, 0⟩].all id) =
      passesFilters argsDefault none ⟨[['r']], ['r'], FType.dir, 0⟩ :=
  c8_filter_order argsDefault none ⟨[['r']], ['r'], FType.dir, 0⟩ _ (by decide)

/-- C9: Exactly one name-matching mode is active per run: with `--name`
absent the filter always passes and the `--regex` flag does not change the
run's outcome at all; with `--name` present and no `--regex` the compiled
slot is empty and matching is the literal substring test; with `--name`
present and `--regex` the compiled pattern fills the slot and matching is
the regex search. -/
theorem c9_name_mode (compile : List Char → Except (List Char) RE) :
    (∀ (r : Option RE) (nm : List Char), nameFilterPasses none r nm = true) ∧
    (∀ (b : Bool) (x : Option (List Char)) (md : Option Nat) (hid : Bool)
        (ty : FileTypeFilter) (root : Option FSNode),
        mainModel compile ⟨none, b, x, md, hid, ty⟩ root =
          mainModel compile ⟨none, false, x, md, hid, ty⟩ root) ∧
    (∀ pat : List Char,
        compileNameRegex compile false (some pat) = Except.ok none) ∧
    (∀ pat nm : List Char,
        nameFilterPasses (some pat) none nm = containsSub nm pat) ∧
    (∀ (pat : List Char) (re : RE), compile pat = Except.ok re →
        compileNameRegex compile true (some pat) = Except.ok (some re)) ∧
    (∀ (pat : List Char) (re : RE) (nm : List Char),
        nameFilterPasses (some pat) (some re) nm = isMatch re nm) := by
  refine ⟨?_, ?_, ?_, ?_, ?_, ?_⟩
  · intro r nm; rfl
  · intro b x md hid ty root
    cases b <;> rfl
  · intro pat; rfl
  · intro pat nm; rfl
  · intro pat re h
    unfold compileNameRegex
    simp [h]
  · intro pat re nm; rfl

/-- C9 witness: flipping `--regex` without `--name` leaves a concrete run
unchanged; literal mode compiles to an empty slot; regex mode compiles to
the pattern. -/
theorem c9_name_mode_witness :
    mainModel compileFail
        ⟨none, true, none, none, false, FileTypeFilter.any⟩ (some tDot) =
      mainModel compileFail
        ⟨none, false, none, none, false, FileTypeFilter.any⟩ (some tDot) ∧
    compileNameRegex compileFail false (some ['[']) = Except.ok none ∧
    compileNameRegex (fun _ => Except.ok (RE.chr 'a')) true (some ['a']) =
      Except.ok (some (RE.chr 'a')) :=
  ⟨(c9_name_mode compileFail).2.1 true none none false FileTypeFilter.any
      (some tDot),
   (c9_name_mode compileFail).2.2.1 ['['],
   (c9_name_mode (fun _ => Except.ok (RE.chr 'a'))).2.2.2.2.1 ['a']
     (RE.chr 'a') rfl⟩

/-- C10: The hidden filter is per-entry and never prunes: under the
default configuration the reported entries are exactly the fully traversed
entries whose own base name does not start with '.'; concretely, on the
root "." tree the root and the hidden directory ".d" are suppressed while
the non-hidden child "a" and the descendant "b" inside ".d" are still
reported. -/
theorem c10_hidden_no_prune :
    (∀ (compile : List Char → Except (List Char) RE) (t : FSNode),
        (mainModel compile argsDefault (some t)).stdout =
          ((walkRun none (some t)).filterMap okEntry).filter
            (fun e => !isHiddenName e.name)) ∧
    (mainModel compileFail argsDefault (some tDot)).stdout =
      [⟨[['.'], ['a']], ['a'], FType.file, 1⟩,
       ⟨[['.'], ['.', 'd'], ['b']], ['b'], FType.file, 2⟩] := by
  constructor
  · intro compile t
    show reportEntries argsDefault none (walkRun none (some t)) = _
    unfold reportEntries
    exact List.filter_congr (fun e _ => passes_default e)
  · decide

end Lookfor
